import Mathlib

/-
Verification of the data-transformation and orchestration logic of the
MNIST factorization-machines demonstration script (train.py).

The script is a linear sequence of calls: load MNIST, binarize labels,
cast features to float32, serialize, upload to object storage, submit a
training job, deploy an endpoint, run batched inference over the test
split, cross-tabulate predictions against binarized ground truth, and
delete the endpoint.  The pure data transformations are embedded below
as executable Lean functions; the straight-line control flow is embedded
as a step trace.
-/

namespace SageMakerDemo

/-! ## Label binarization (train.py lines 37 and 110)

Line 37: `labels = np.where(np.array([...]) == 0, 1.0, 0.0).astype('float32')`
Line 110: `np.where(test_set[1] == 0, 1, 0)`
-/

/-- Embedding of the training-label transform on a single label:
`np.where(l == 0, 1.0, 0.0)` (the float32 cast is exact on 0.0 and 1.0). -/
def binarizeTrain (l : Int) : Rat :=
  if l == 0 then 1.0 else 0.0

/-- Embedding of the evaluation ground-truth transform on a single label:
`np.where(l == 0, 1, 0)`. -/
def binarizeEval (l : Int) : Int :=
  if l == 0 then 1 else 0

/-! ## np.array_split (train.py line 101)

numpy's `array_split(ary, n)` computes `q, r = divmod(len(ary), n)` and
uses section sizes `r * [q + 1] + (n - r) * [q]`, slicing the input at the
cumulative size boundaries.
-/

/-- Section sizes used by `np.array_split`: with `q = total / n` and
`r = total % n`, the sizes are `r` copies of `q + 1` followed by `n - r`
copies of `q`. -/
def sectionSizes (total n : Nat) : List Nat :=
  List.replicate (total % n) (total / n + 1) ++
    List.replicate (n - total % n) (total / n)

/-- Slice a list at the given section sizes: each size takes that many
elements from the front of what remains. -/
def splitAtSizes (xs : List α) : List Nat → List (List α)
  | [] => []
  | s :: rest => xs.take s :: splitAtSizes (xs.drop s) rest

/-- Embedding of `np.array_split(xs, n)`. -/
def arraySplit (xs : List α) (n : Nat) : List (List α) :=
  splitAtSizes xs (sectionSizes xs.length n)

/-! ## pd.crosstab (train.py line 110)

`pd.crosstab(np.where(test_set[1] == 0, 1, 0), predictions, ...)` builds a
table whose cell at row value `a` and column value `p` is the number of
positions carrying the pair `(a, p)`; its rows range over the distinct
binarized actual values and its columns over the distinct predicted values.
-/

/-- The sequence of (binarized actual, predicted) pairs that line 110
tabulates. -/
def crosstabPairs (actuals preds : List Int) : List (Int × Int) :=
  (actuals.map binarizeEval).zip preds

/-- Cell of the confusion cross-tabulation at row value `a` and column
value `p`: the number of occurrences of the pair `(a, p)`. -/
def crosstabCell (actuals preds : List Int) (a p : Int) : Nat :=
  (crosstabPairs actuals preds).count (a, p)

/-! ## Upload locator (train.py lines 47-49, 75)

Line 48 writes the object at `os.path.join(prefix, 'train', key)`;
line 49 builds `s3_train_data = 's3://{}/{}/train/{}'.format(bucket, prefix, key)`;
line 75 submits `fm.fit({'train': s3_train_data})`.
-/

/-- Whether the first character of `s` is a slash (`b.startswith('/')` for
the single-character separator). -/
def startsWithSlash (s : String) : Bool :=
  s.data.head? = some '/'

/-- Whether the last character of `s` is a slash (`path.endswith('/')`). -/
def endsWithSlash (s : String) : Bool :=
  s.data.getLast? = some '/'

/-- Embedding of POSIX `os.path.join` on two components: an absolute
second component replaces the path; otherwise the parts are joined,
inserting a slash unless the left part is empty or already ends in one. -/
def pathJoin2 (path b : String) : String :=
  if startsWithSlash b then b
  else if path = "" || endsWithSlash path then path ++ b
  else path ++ "/" ++ b

/-- Embedding of `os.path.join(pfx, 'train', key)` from line 48: the object
key the upload writes to. -/
def uploadObjectKey (pfx key : String) : String :=
  pathJoin2 (pathJoin2 pfx "train") key

/-- Embedding of line 49: the locator string
`'s3://{}/{}/train/{}'.format(bucket, pfx, key)`. -/
def s3_train_data (bucket pfx key : String) : String :=
  "s3://" ++ bucket ++ "/" ++ pfx ++ "/train/" ++ key

/-- Embedding of line 75: the data channels passed to `fm.fit`, given the
locator variable produced by the upload step. -/
def fitChannels (bucket pfx key : String) : List (String × String) :=
  [("train", s3_train_data bucket pfx key)]

/-! ## Training configuration (train.py lines 70-73) -/

structure Hyperparameters where
  feature_dim : Nat
  predictor_type : String
  mini_batch_size : Nat
  num_factors : Nat
deriving DecidableEq, Repr

/-- Embedding of the `fm.set_hyperparameters(...)` call on lines 70-73. -/
def fmHyperparameters : Hyperparameters :=
  { feature_dim := 784
    predictor_type := "binary_classifier"
    mini_batch_size := 200
    num_factors := 10 }

/-! ## Tensor encoding (train.py lines 36-40)

Line 36: `vectors = np.array([t.tolist() for t in train_set[0]]).astype('float32')`
— each sample vector is kept intact, each element cast to float32.
Line 37 binarizes the labels (see `binarizeTrain`).
Line 40 serializes `(vectors, labels)` pairwise into the record buffer.
The float32 cast is kept abstract as an arbitrary elementwise function:
every property proved below holds for the actual IEEE conversion.
-/

/-- Embedding of the per-sample feature encoding of line 36: `t.tolist()`
followed by the elementwise `astype('float32')` cast. -/
def encodeVector (cast : α → β) (t : List α) : List β :=
  t.map cast

/-- Embedding of line 36 over the whole training split. -/
def encodeVectors (cast : α → β) (features : List (List α)) : List (List β) :=
  features.map (encodeVector cast)

/-- Embedding of line 37 over the whole training split: the binarized
label array handed to `write_numpy_to_dense_tensor`. -/
def encodeLabels (rawLabels : List Int) : List Rat :=
  rawLabels.map binarizeTrain

/-! ## Inference request and response format (train.py lines 84-92, 103)

`fm_serializer` builds `js = {'instances': []}`, appends
`{'features': row.tolist()}` per row, and returns `json.dumps(js)`.
Line 90 sets `content_type = 'application/json'`; line 103 extracts
`[r['predicted_label'] for r in result['predictions']]`.

JSON values are modelled with feature and label atoms as integers; the
formatting of `json.dumps` with its default separators is embedded in
`dumps`.
-/

inductive JVal where
  | num (n : Int)
  | str (s : String)
  | arr (xs : List JVal)
  | obj (fields : List (String × JVal))

/-- Quoted rendering of a JSON string (no escaping is needed for the
field names the script uses). -/
def quoteStr (s : String) : String :=
  "\"" ++ s ++ "\""

/-- Comma-space separated concatenation, as in `json.dumps` default
item separator. -/
def commaSep : List String → String
  | [] => ""
  | [s] => s
  | s :: rest => s ++ ", " ++ commaSep rest

mutual

/-- Embedding of `json.dumps` with the default separators
`(', ', ': ')`. -/
def dumps : JVal → String
  | JVal.num n => toString n
  | JVal.str s => quoteStr s
  | JVal.arr xs => "[" ++ commaSep (dumpsList xs) ++ "]"
  | JVal.obj fs => "\x7b" ++ commaSep (dumpsFields fs) ++ "\x7d"

def dumpsList : List JVal → List String
  | [] => []
  | x :: xs => dumps x :: dumpsList xs

def dumpsFields : List (String × JVal) → List String
  | [] => []
  | f :: fs => (quoteStr f.1 ++ ": " ++ dumps f.2) :: dumpsFields fs

end

/-- Embedding of `fm_serializer` (lines 84-88): start from
`{'instances': []}`, append `{'features': row.tolist()}` for each row of
the batch in order, and dump the result to a JSON string. -/
def fm_serializer (data : List (List Int)) : String :=
  let instances :=
    data.foldl
      (fun acc row => acc ++ [JVal.obj [("features", JVal.arr (row.map JVal.num))]])
      []
  dumps (JVal.obj [("instances", JVal.arr instances)])

/-- Embedding of line 90: the content type set on the predictor. -/
def fm_predictor_content_type : String :=
  "application/json"

/-- Python `dict` lookup on a JSON object field list (first binding of
the key). -/
def dictGet (fs : List (String × JVal)) (k : String) : Option JVal :=
  (fs.find? (fun f => f.1 == k)).map (fun f => f.2)

/-- Read `r['predicted_label']` off each prediction item in order, as the
list comprehension of line 103 does; a missing key or non-object item
surfaces as `none` (the Python code would raise there). -/
def extractLabelsList : List JVal → Option (List JVal)
  | [] => some []
  | r :: rs =>
      match r with
      | JVal.obj rf =>
          match dictGet rf "predicted_label", extractLabelsList rs with
          | some v, some vs => some (v :: vs)
          | _, _ => none
      | _ => none

/-- Embedding of line 103: `[r['predicted_label'] for r in
result['predictions']]`, with missing keys or non-object shapes
surfacing as `none` (the Python code would raise). -/
def extractPredictedLabels (result : JVal) : Option (List JVal) :=
  match result with
  | JVal.obj fs =>
      match dictGet fs "predictions" with
      | some (JVal.arr rs) => extractLabelsList rs
      | _ => none
  | _ => none

/-! ## Straight-line control flow (train.py lines 13-113)

The script is a single linear sequence of statements with no try/except
and no conditional around any call.  It is embedded as the ordered list
of its external-effect steps; a run under a failure oracle executes the
steps in order and stops at the first step that raises (that step is
invoked, nothing after it is).
-/

inductive Step where
  | fetchData
  | encodeData
  | uploadData
  | fitJob
  | deployEndpoint
  | configurePredictor
  | samplePredict
  | evalPredictLoop
  | crosstabEval
  | deleteEndpoint
deriving DecidableEq, Repr

/-- The ordered steps of the script, one per external-effect statement
group, in source order. -/
def scriptSteps : List Step :=
  [Step.fetchData, Step.encodeData, Step.uploadData, Step.fitJob,
   Step.deployEndpoint, Step.configurePredictor, Step.samplePredict,
   Step.evalPredictLoop, Step.crosstabEval, Step.deleteEndpoint]

/-- Execute steps in order under a failure oracle: a raising step is
invoked and terminates the run; otherwise execution continues. -/
def runSteps (raises : Step → Bool) : List Step → List Step
  | [] => []
  | s :: rest => if raises s then [s] else s :: runSteps raises rest

/-- The list of steps the script actually invokes in a run under the
given failure oracle. -/
def runScript (raises : Step → Bool) : List Step :=
  runSteps raises scriptSteps

/-- The steps of the script that sit strictly between endpoint deployment
and the final teardown call. -/
def betweenDeployAndDelete : List Step :=
  [Step.configurePredictor, Step.samplePredict, Step.evalPredictLoop,
   Step.crosstabEval]

/-! ## Auxiliary lemmas -/

theorem sectionSizes_length (total n : Nat) (hn : 0 < n) :
    (sectionSizes total n).length = n := by
  have h := Nat.mod_lt total hn
  simp [sectionSizes]
  omega

theorem sectionSizes_sum (total n : Nat) (hn : 0 < n) :
    (sectionSizes total n).sum = total := by
  have hmod := Nat.mod_lt total hn
  have hdm := Nat.div_add_mod total n
  simp [sectionSizes, List.sum_replicate, smul_eq_mul]
  set q := total / n
  set r := total % n
  have h1 : r * (q + 1) = r * q + r := by ring
  have h2 : (n - r) * q = n * q - r * q := Nat.sub_mul n r q
  have hle : r * q ≤ n * q := Nat.mul_le_mul_right q (Nat.le_of_lt hmod)
  omega

theorem splitAtSizes_length (xs : List α) (sizes : List Nat) :
    (splitAtSizes xs sizes).length = sizes.length := by
  induction sizes generalizing xs with
  | nil => rfl
  | cons s rest ih => simp [splitAtSizes, ih]

theorem splitAtSizes_flatten (xs : List α) (sizes : List Nat) :
    (splitAtSizes xs sizes).flatten = xs.take sizes.sum := by
  induction sizes generalizing xs with
  | nil => simp [splitAtSizes]
  | cons s rest ih =>
      simp [splitAtSizes, ih, List.take_add]

theorem arraySplit_length (xs : List α) (n : Nat) (hn : 0 < n) :
    (arraySplit xs n).length = n := by
  rw [arraySplit, splitAtSizes_length, sectionSizes_length _ _ hn]

theorem arraySplit_flatten (xs : List α) (n : Nat) (hn : 0 < n) :
    (arraySplit xs n).flatten = xs := by
  rw [arraySplit, splitAtSizes_flatten, sectionSizes_sum _ _ hn,
    List.take_length]

theorem splitAtSizes_map (f : α → β) (xs : List α) (sizes : List Nat) :
    splitAtSizes (xs.map f) sizes = (splitAtSizes xs sizes).map (List.map f) := by
  induction sizes generalizing xs with
  | nil => rfl
  | cons s rest ih =>
      rw [splitAtSizes, splitAtSizes, List.map_cons, ← List.map_take,
        ← List.map_drop, ih]

theorem arraySplit_map (f : α → β) (xs : List α) (n : Nat) :
    arraySplit (xs.map f) n = (arraySplit xs n).map (List.map f) := by
  rw [arraySplit, arraySplit, List.length_map, splitAtSizes_map]

theorem count_pairs_length (l : List (Int × Int)) (s : Finset (Int × Int))
    (h : ∀ x ∈ l, x ∈ s) :
    (∑ x in s, l.count x) = l.length := by
  induction l with
  | nil => simp
  | cons a l ih =>
      have ha : a ∈ s := h a (List.mem_cons_self a l)
      have hrest : ∀ x ∈ l, x ∈ s := fun x hx => h x (List.mem_cons_of_mem a hx)
      have hone : (∑ x in s, (if a = x then (1 : Nat) else 0)) = 1 := by
        rw [Finset.sum_ite_eq s a (fun _ => (1 : Nat))]
        simp [ha]
      calc (∑ x in s, (a :: l).count x)
          = ∑ x in s, (l.count x + if a = x then 1 else 0) := by
            refine Finset.sum_congr rfl (fun x _ => ?_)
            rw [List.count_cons]
            by_cases hax : a = x
            · simp [hax]
            · simp [hax, beq_eq_false_iff_ne.mpr hax]
        _ = (∑ x in s, l.count x) + ∑ x in s, (if a = x then 1 else 0) :=
            Finset.sum_add_distrib
        _ = l.length + 1 := by rw [ih hrest, hone]
        _ = (a :: l).length := by simp

theorem countP_zip_range (l1 : List α) (l2 : List β) (d1 : α) (d2 : β)
    (q : α → β → Bool) (h : l1.length = l2.length) :
    (l1.zip l2).countP (fun ab => q ab.1 ab.2) =
      (List.range l1.length).countP (fun i => q (l1.getD i d1) (l2.getD i d2)) := by
  induction l1 generalizing l2 with
  | nil => simp
  | cons a l1 ih =>
      cases l2 with
      | nil => simp at h
      | cons b l2 =>
          have hlen : l1.length = l2.length := by simpa using h
          rw [List.zip_cons_cons, List.countP_cons, List.length_cons,
            List.range_succ_eq_map, List.countP_cons, List.countP_map,
            ih l2 hlen]
          simp only [List.getD_cons_zero, Nat.add_left_cancel_iff]
          congr 1


theorem splitAtSizes_map_length (xs : List α) (sizes : List Nat)
    (h : sizes.sum ≤ xs.length) :
    (splitAtSizes xs sizes).map List.length = sizes := by
  induction sizes generalizing xs with
  | nil => rfl
  | cons s rest ih =>
      rw [List.sum_cons] at h
      have hs : s ≤ xs.length := by omega
      have hrest : rest.sum ≤ (xs.drop s).length := by
        rw [List.length_drop]
        omega
      simp only [splitAtSizes, List.map_cons, List.length_take, ih _ hrest]
      rw [Nat.min_eq_left hs]

theorem getD_map (f : α → β) (l : List α) (i : Nat) (d : α) :
    (l.map f).getD i (f d) = f (l.getD i d) := by
  induction l generalizing i with
  | nil => simp [List.getD]
  | cons a l ih =>
      cases i with
      | zero => simp
      | succ j =>
          rw [List.map_cons, List.getD_cons_succ, List.getD_cons_succ]
          exact ih j

theorem foldl_append_build (g : α → β) (data : List α) (acc : List β) :
    data.foldl (fun acc row => acc ++ [g row]) acc = acc ++ data.map g := by
  induction data generalizing acc with
  | nil => simp
  | cons a data ih => simp [ih]

/-! ## Claim theorems -/

/-- C1: the binarization used by the script maps a label to the positive
indicator exactly when it equals 0: the training transform yields 1.0 on
label 0 and 0.0 otherwise, and the evaluation ground-truth transform
yields 1 on label 0 and 0 otherwise. -/
theorem C1_binarization (L : Int) :
    binarizeTrain L = (if L = 0 then (1 : Rat) else 0) ∧
    binarizeEval L = (if L = 0 then (1 : Int) else 0) ∧
    (binarizeTrain L = 1 ↔ L = 0) ∧
    (binarizeEval L = 1 ↔ L = 0) := by
  by_cases h : L = 0 <;> simp [binarizeTrain, binarizeEval, h] <;> norm_num

/-- C2: splitting the test features into 100 parts, applying the per-row
prediction function within each part, and concatenating the results in
chunk order reproduces exactly the elementwise prediction of the original
sequence, in the original order and with one output per input row. -/
theorem C2_chunked_round_trip {α β : Type} (testFeatures : List α)
    (predictRow : α → β) :
    ((arraySplit testFeatures 100).map (List.map predictRow)).flatten =
      testFeatures.map predictRow ∧
    ((arraySplit testFeatures 100).map (List.map predictRow)).flatten.length =
      testFeatures.length := by
  have h : ((arraySplit testFeatures 100).map (List.map predictRow)).flatten =
      testFeatures.map predictRow := by
    rw [← arraySplit_map, arraySplit_flatten _ _ (by norm_num)]
  exact ⟨h, by rw [h, List.length_map]⟩

/-- C6 counterexample: for the one-sample test set `[0]`, `array_split`
into 100 parts does not produce chunks that are all of equal size (the
first chunk has one element and the rest are empty), refuting the claim
for arbitrary test feature sets. -/
theorem C6_counterexample :
    ¬ (∀ c1 ∈ arraySplit [(0 : Int)] 100, ∀ c2 ∈ arraySplit [(0 : Int)] 100,
        c1.length = c2.length) := by
  decide

/-- C6 (amended): the evaluator always partitions the test features into
exactly 100 chunks; the chunks are all of equal size (length / 100 each)
whenever 100 divides the number of test samples, as it does for the
script's 10000-sample MNIST test split. -/
theorem C6_amended {α : Type} (testFeatures : List α) :
    (arraySplit testFeatures 100).length = 100 ∧
    (100 ∣ testFeatures.length →
      (arraySplit testFeatures 100).map List.length =
        List.replicate 100 (testFeatures.length / 100)) := by
  refine ⟨arraySplit_length _ _ (by norm_num), fun hdvd => ?_⟩
  have hmod : testFeatures.length % 100 = 0 := by
    obtain ⟨k, hk⟩ := hdvd
    simp [hk, Nat.mul_mod_right]
  have hsizes : sectionSizes testFeatures.length 100 =
      List.replicate 100 (testFeatures.length / 100) := by
    simp [sectionSizes, hmod]
  rw [arraySplit, hsizes]
  apply splitAtSizes_map_length
  rw [List.sum_replicate, smul_eq_mul, mul_comm]
  exact Nat.div_mul_le_self _ _

/-- C3: over equal-length actual and predicted label lists, the confusion
cross-tabulation of binarized actuals against predictions has cell counts
summing to the total sample count, and each cell (a, p) counts exactly the
indices i whose binarized actual is a and whose prediction is p. -/
theorem C3_crosstab_cells (actuals preds : List Int)
    (h : actuals.length = preds.length) :
    (∑ q in (actuals.map binarizeEval).toFinset ×ˢ preds.toFinset,
        crosstabCell actuals preds q.1 q.2) = actuals.length ∧
    ∀ a p, crosstabCell actuals preds a p =
      (List.range actuals.length).countP
        (fun i => binarizeEval (actuals.getD i 0) == a && preds.getD i 0 == p) := by
  constructor
  · have hmem : ∀ x ∈ crosstabPairs actuals preds,
        x ∈ (actuals.map binarizeEval).toFinset ×ˢ preds.toFinset := by
      intro x hx
      rcases x with ⟨a, b⟩
      rw [crosstabPairs] at hx
      obtain ⟨h1, h2⟩ := List.of_mem_zip hx
      exact Finset.mem_product.mpr ⟨List.mem_toFinset.mpr h1, List.mem_toFinset.mpr h2⟩
    have hlen : (crosstabPairs actuals preds).length = actuals.length := by
      simp [crosstabPairs, List.length_zip, h]
    have hsum := count_pairs_length (crosstabPairs actuals preds) _ hmem
    calc (∑ q in (actuals.map binarizeEval).toFinset ×ˢ preds.toFinset,
            crosstabCell actuals preds q.1 q.2)
        = (∑ q in (actuals.map binarizeEval).toFinset ×ˢ preds.toFinset,
            (crosstabPairs actuals preds).count q) := by
          refine Finset.sum_congr rfl (fun q _ => ?_)
          rw [crosstabCell]
      _ = (crosstabPairs actuals preds).length := hsum
      _ = actuals.length := hlen
  · intro a p
    have hq := countP_zip_range (actuals.map binarizeEval) preds
      (binarizeEval 0) 0 (fun x y => x == a && y == p) (by simp [h])
    simp only [List.length_map, getD_map] at hq
    rw [crosstabCell, List.count_eq_countP, ← hq, crosstabPairs]
    refine List.countP_congr (fun x _ => ?_)
    rcases x with ⟨u, v⟩
    rfl

/-- C4 counterexample: with the key "/recordio-pb-data", the `os.path.join`
call of line 48 discards the prefix entirely, so the object key actually
written is not `{prefix}/train/{key}`, refuting the claim quantified over
every key. -/
theorem C4_counterexample :
    uploadObjectKey "sagemaker/DEMO-1" "/recordio-pb-data" ≠
      "sagemaker/DEMO-1" ++ "/train/" ++ "/recordio-pb-data" := by
  decide

theorem append_train_slash (pfx key : String) :
    pfx ++ "/" ++ "train" ++ "/" ++ key = pfx ++ "/train/" ++ key := by
  apply String.ext
  simp only [String.data_append, List.append_assoc]
  congr 1

/-- C4 (amended): for every bucket, and every prefix and key that are
nonempty and carry no leading or trailing slash of their own (as the
script's constants do), the locator produced by the upload step equals
`s3://{bucket}/{prefix}/train/{key}`, the object key written equals
`{prefix}/train/{key}`, and the locator consumed by the training-job
submission is exactly the locator produced by the upload step. -/
theorem C4_amended_locator (bucket pfx key : String)
    (h1 : pfx ≠ "") (h2 : endsWithSlash pfx = false)
    (h3 : startsWithSlash key = false) :
    s3_train_data bucket pfx key =
      "s3://" ++ bucket ++ "/" ++ pfx ++ "/train/" ++ key ∧
    uploadObjectKey pfx key = pfx ++ "/train/" ++ key ∧
    fitChannels bucket pfx key = [("train", s3_train_data bucket pfx key)] := by
  refine ⟨rfl, ?_, rfl⟩
  have c1 : startsWithSlash "train" = false := by decide
  have hne : decide (pfx = "") = false := decide_eq_false h1
  have hj1 : pathJoin2 pfx "train" = pfx ++ "/" ++ "train" := by
    simp [pathJoin2, c1, hne, h2]
  have hlast : (pfx ++ "/" ++ "train").data.getLast? = some 'n' := by
    rw [String.data_append, List.getLast?_append_of_ne_nil _ (by decide)]
    decide
  have h4 : endsWithSlash (pfx ++ "/" ++ "train") = false := by
    rw [endsWithSlash, hlast]
    decide
  have h5 : pfx ++ "/" ++ "train" ≠ "" := by
    intro hEq
    rw [hEq] at hlast
    exact absurd hlast (by decide)
  have hne5 : decide (pfx ++ "/" ++ "train" = "") = false := decide_eq_false h5
  rw [uploadObjectKey, hj1, pathJoin2]
  simp only [h3, hne5, h4, Bool.or_self, Bool.false_eq_true, if_false]
  exact append_train_slash pfx key

theorem extractLabelsList_map (labels : List JVal) :
    extractLabelsList (labels.map (fun v => JVal.obj [("predicted_label", v)])) =
      some labels := by
  induction labels with
  | nil => rfl
  | cons v labels ih => simp [extractLabelsList, ih, dictGet, List.find?]

/-- C5: the request serializer produces exactly the JSON string of the
object with an "instances" list holding one "features" object per input
row in input order; the request content type is "application/json"; and
the per-row predicted label is read from the "predicted_label" field of
each item of the response's "predictions" list, in order. -/
theorem C5_request_response_format (data : List (List Int)) (labels : List JVal) :
    fm_serializer data =
      dumps (JVal.obj [("instances",
        JVal.arr (data.map (fun row =>
          JVal.obj [("features", JVal.arr (row.map JVal.num))])))]) ∧
    fm_predictor_content_type = "application/json" ∧
    extractPredictedLabels
        (JVal.obj [("predictions",
          JVal.arr (labels.map (fun v => JVal.obj [("predicted_label", v)])))]) =
      some labels := by
  refine ⟨?_, rfl, ?_⟩
  · simp only [fm_serializer, foldl_append_build, List.nil_append]
  · rw [extractPredictedLabels]
    simp only [dictGet, List.find?]
    exact extractLabelsList_map labels

/-- C7: on the normal (exception-free) execution path the script invokes
every step in source order, so the endpoint-deletion teardown call is
invoked exactly once, strictly after the evaluation cross-tabulation, as
the final step; the step sequence contains no branch on the prediction
outcome or the endpoint state. -/
theorem C7_teardown_once (raises : Step → Bool)
    (hnormal : ∀ s, raises s = false) :
    runScript raises = scriptSteps ∧
    (runScript raises).count Step.deleteEndpoint = 1 ∧
    (runScript raises).indexOf Step.crosstabEval <
      (runScript raises).indexOf Step.deleteEndpoint ∧
    (runScript raises).getLast? = some Step.deleteEndpoint := by
  have hrun : runScript raises = scriptSteps := by
    simp [runScript, scriptSteps, runSteps, hnormal]
  refine ⟨hrun, ?_, ?_, ?_⟩ <;> rw [hrun] <;> decide

theorem C7_witness :
    runScript (fun _ => false) = scriptSteps ∧
    (runScript (fun _ => false)).count Step.deleteEndpoint = 1 ∧
    (runScript (fun _ => false)).getLast? = some Step.deleteEndpoint := by
  have h := C7_teardown_once (fun _ => false) (fun s => rfl)
  exact ⟨h.1, h.2.1, h.2.2.2⟩

/-- C8: if a step strictly between endpoint deployment and the final
teardown call is reached and raises an exception, the run terminates
there and the endpoint-deletion step is never invoked: no cleanup
handler exists on any early-exit path. -/
theorem C8_endpoint_leak (raises : Step → Bool) (s : Step)
    (hbetween : s ∈ betweenDeployAndDelete)
    (hinvoked : s ∈ runScript raises)
    (hraise : raises s = true) :
    Step.deleteEndpoint ∉ runScript raises := by
  fin_cases hbetween <;>
  · simp only [runScript, scriptSteps, runSteps] at hinvoked ⊢
    split_ifs at hinvoked ⊢ <;> simp_all

theorem C8_witness :
    Step.evalPredictLoop ∈ betweenDeployAndDelete ∧
    Step.evalPredictLoop ∈ runScript (fun s => s == Step.evalPredictLoop) ∧
    Step.deleteEndpoint ∉ runScript (fun s => s == Step.evalPredictLoop) :=
  ⟨by decide, by decide,
    C8_endpoint_leak (fun s => s == Step.evalPredictLoop) Step.evalPredictLoop
      (by decide) (by decide) (by decide)⟩

/-- C9: the feature-encoding step of line 36 preserves the 784-element
vector length and is exactly the elementwise cast (position i of the
output is the cast of position i of the input, nothing else changes),
and the feature_dim hyperparameter submitted on line 70 equals 784,
matching the encoded vector length. -/
theorem C9_encode_feature_dim {α β : Type} (cast : α → β) (V : List α)
    (h : V.length = 784) :
    (encodeVector cast V).length = 784 ∧
    (∀ i : Nat, (encodeVector cast V)[i]? = (V[i]?).map cast) ∧
    fmHyperparameters.feature_dim = 784 ∧
    fmHyperparameters.feature_dim = V.length := by
  refine ⟨by simp [encodeVector, h], fun i => ?_, rfl, h.symm⟩
  simp [encodeVector]

theorem C9_witness :
    (List.replicate 784 (0 : Int)).length = 784 ∧
    (encodeVector (fun x : Int => (x : Rat)) (List.replicate 784 (0 : Int))).length
      = 784 ∧
    fmHyperparameters.feature_dim = 784 := by
  have h : (List.replicate 784 (0 : Int)).length = 784 := by
    rw [List.length_replicate]
  have hc := C9_encode_feature_dim (fun x : Int => (x : Rat))
    (List.replicate 784 (0 : Int)) h
  exact ⟨h, hc.1, hc.2.2.1⟩

/-- C10: the tensor-encoding step preserves the pairing and count of the
training split: the binarized label array has exactly one entry per
encoded feature row, and entry i is the binarization of the label of
sample i, so features and labels reach the record serializer aligned
index for index. -/
theorem C10_label_alignment {α β : Type} (cast : α → β)
    (features : List (List α)) (rawLabels : List Int)
    (h : features.length = rawLabels.length) :
    (encodeLabels rawLabels).length = (encodeVectors cast features).length ∧
    (∀ i : Nat, (encodeLabels rawLabels)[i]? = (rawLabels[i]?).map binarizeTrain) := by
  refine ⟨by simp [encodeLabels, encodeVectors, h], fun i => ?_⟩
  simp [encodeLabels]

theorem C10_witness :
    ([[(1 : Int)], [2]] : List (List Int)).length = ([(0 : Int), 3]).length ∧
    (encodeLabels [(0 : Int), 3]).length =
      (encodeVectors (fun x : Int => (x : Rat)) [[(1 : Int)], [2]]).length ∧
    (encodeLabels [(0 : Int), 3])[0]? =
      (([(0 : Int), 3] : List Int)[0]?).map binarizeTrain := by
  have h : ([[(1 : Int)], [2]] : List (List Int)).length = ([(0 : Int), 3]).length := rfl
  have hc := C10_label_alignment (fun x : Int => (x : Rat)) [[(1 : Int)], [2]]
    [(0 : Int), 3] h
  exact ⟨h, hc.1, hc.2 0⟩

theorem C3_witness :
    ([(0 : Int), 1, 0, 2] : List Int).length = ([(1 : Int), 0, 1, 0] : List Int).length ∧
    (∑ q in (([(0 : Int), 1, 0, 2] : List Int).map binarizeEval).toFinset ×ˢ
        ([(1 : Int), 0, 1, 0] : List Int).toFinset,
      crosstabCell [0, 1, 0, 2] [1, 0, 1, 0] q.1 q.2) = 4 := by
  have h : ([(0 : Int), 1, 0, 2] : List Int).length =
      ([(1 : Int), 0, 1, 0] : List Int).length := rfl
  have hc := C3_crosstab_cells [0, 1, 0, 2] [1, 0, 1, 0] h
  exact ⟨h, hc.1⟩

theorem C4_witness :
    "sagemaker/DEMO-1" ≠ "" ∧
    endsWithSlash "sagemaker/DEMO-1" = false ∧
    startsWithSlash "recordio-pb-data" = false ∧
    s3_train_data "localide" "sagemaker/DEMO-1" "recordio-pb-data" =
      "s3://" ++ "localide" ++ "/" ++ "sagemaker/DEMO-1" ++ "/train/" ++ "recordio-pb-data" ∧
    uploadObjectKey "sagemaker/DEMO-1" "recordio-pb-data" =
      "sagemaker/DEMO-1" ++ "/train/" ++ "recordio-pb-data" := by
  have hc := C4_amended_locator "localide" "sagemaker/DEMO-1" "recordio-pb-data"
    (by decide) (by decide) (by decide)
  exact ⟨by decide, by decide, by decide, hc.1, hc.2.1⟩

theorem C6_witness :
    (100 : Nat) ∣ (List.replicate 200 (0 : Int)).length ∧
    (arraySplit (List.replicate 200 (0 : Int)) 100).length = 100 ∧
    (arraySplit (List.replicate 200 (0 : Int)) 100).map List.length =
      List.replicate 100 ((List.replicate 200 (0 : Int)).length / 100) := by
  have hd : (100 : Nat) ∣ (List.replicate 200 (0 : Int)).length := by
    rw [List.length_replicate]
    exact ⟨2, rfl⟩
  have hc := C6_amended (List.replicate 200 (0 : Int))
  exact ⟨hd, hc.1, hc.2 hd⟩

end SageMakerDemo
